import Mathlib

/-!
# Verification of the taskqueue-mcp task/project store

Shallow embedding of `src/server/TaskManagerServer.ts`.  Each public
operation of the `TaskManagerServer` class is modelled as a pure function
from the persisted file state (`TaskManagerFile`) to a result value plus
the new file state.  Every mutating operation in the source begins with
`await this.loadTasks()` and ends with `await this.saveTasks()`, so the
in-memory data and the on-disk file coincide at operation boundaries;
the model therefore threads a single `TaskManagerFile` value.

Modelling conventions, matching the source:

* Identifiers `proj-<n>` / `task-<n>` are modelled by their numeric
  suffix `n : Nat`.  The source formats an id as the literal prefix
  followed by the decimal counter and recovers the counter with
  `Number.parseInt(id.replace(prefix, ""), 10)`; formatting and parsing
  round-trip, so the watermark recomputation in `loadTasks` (a
  `Math.max` over all parsed suffixes, defaulting to 0) is modelled as
  the maximum of the numeric ids, defaulting to 0.
* JavaScript truthiness: `x || y` on strings falls back to `y` when `x`
  is `undefined` or `""` (`jsOr`); `if (updates.title)` skips an update
  whose value is the empty string (`applyTruthy`); `!completedDetails`
  is true exactly when the argument is `undefined` or `""`
  (`cdMissing`).
* `find` / in-place mutation of the found object is modelled by
  `replaceFirst`, which rewrites the first element satisfying the
  predicate; `findIndex` / `splice(i, 1)` is modelled by `removeFirst`.
* Result messages that merely embed ids or the rendered progress table
  are display formatting and are elided from result constructors; the
  error message strings that distinguish failure cases are kept
  verbatim.
-/

namespace TaskQueue

/-- Task status, the union type "not started" | "in progress" | "done". -/
inductive TaskStatus where
  | notStarted
  | inProgress
  | done
deriving DecidableEq, Repr

/-- A task record, as stored in the tasks file. -/
structure Task where
  id : Nat
  title : String
  description : String
  status : TaskStatus
  approved : Bool
  completedDetails : String
deriving DecidableEq, Repr

/-- A project record, as stored in the tasks file. -/
structure Project where
  projectId : Nat
  initialPrompt : String
  projectPlan : String
  tasks : List Task
  completed : Bool
deriving DecidableEq, Repr

/-- The root of the persisted state: `{ projects: [...] }`. -/
structure TaskManagerFile where
  projects : List Project
deriving DecidableEq, Repr

/-- The shape of a task definition passed to creation operations. -/
structure TaskDef where
  title : String
  description : String
deriving DecidableEq, Repr

/-- JavaScript `a || b` for an optional string: falls back on
`undefined` and on the (falsy) empty string. -/
def jsOr (a : Option String) (b : String) : String :=
  match a with
  | none => b
  | some s => if s = "" then b else s

/-- JavaScript `if (upd) cur = upd`: an update is applied only when it
is present and truthy (a non-empty string). -/
def applyTruthy (cur : String) (upd : Option String) : String :=
  match upd with
  | none => cur
  | some s => if s = "" then cur else s

/-- JavaScript `!completedDetails`: true when the value is absent or the
empty string. -/
def cdMissing : Option String → Bool
  | none => true
  | some s => s == ""

/-- Rewrites the first element satisfying `p` by `f`; models finding an
object in an array and mutating it in place. -/
def replaceFirst {α : Type} (p : α → Bool) (f : α → α) : List α → List α
  | [] => []
  | x :: xs => if p x then f x :: xs else x :: replaceFirst p f xs

/-- Removes the first element satisfying `p`; models
`findIndex` followed by `splice(index, 1)`. -/
def removeFirst {α : Type} (p : α → Bool) : List α → List α
  | [] => []
  | x :: xs => if p x then xs else x :: removeFirst p xs

/-- All project ids (numeric suffixes) in the file, in order. -/
def allProjectIds (d : TaskManagerFile) : List Nat :=
  d.projects.map Project.projectId

/-- All task ids (numeric suffixes) in the file, in project order then
task insertion order (the order the `loadTasks` scan visits them). -/
def allTaskIds (d : TaskManagerFile) : List Nat :=
  (d.projects.map (fun p => p.tasks.map Task.id)).flatten

/-- `Math.max(...ids)` over a list of ids, defaulting to 0 when the list
is empty (the source's explicit `length > 0 ? Math.max(...) : 0`). -/
def maxId (l : List Nat) : Nat := l.foldr max 0

/-- In-memory state of a `TaskManagerServer`: the two id counters plus
the loaded data. -/
structure ServerState where
  projectCounter : Nat
  taskCounter : Nat
  data : TaskManagerFile
deriving Repr

/-- `loadTasks`: reads the file and recomputes both id watermarks by
scanning every project and task id and taking the maximum. -/
def loadTasks (d : TaskManagerFile) : ServerState :=
  { projectCounter := maxId (allProjectIds d)
    taskCounter := maxId (allTaskIds d)
    data := d }

/-- The task-allocation loop shared by `createProject` and
`addTasksToProject`: for each definition, increment the task counter and
build a fresh task (`status: "not started"`, `approved: false`,
`completedDetails: ""`).  Returns the new tasks and the final counter. -/
def allocTasks (counter : Nat) : List TaskDef → List Task × Nat
  | [] => ([], counter)
  | td :: rest =>
    let t : Task :=
      { id := counter + 1
        title := td.title
        description := td.description
        status := .notStarted
        approved := false
        completedDetails := "" }
    let r := allocTasks (counter + 1) rest
    (t :: r.1, r.2)

/-- Result of `createProject` (it never fails). -/
inductive CreateResult where
  | planned (projectId : Nat) (totalTasks : Nat) (taskIds : List Nat)
deriving DecidableEq, Repr

/-- `createProject`: reload, allocate a fresh project id and fresh task
ids above the watermarks, append the new project, save.
`projectPlan || initialPrompt` supplies the plan default. -/
def createProject (d : TaskManagerFile) (initialPrompt : String)
    (tasks : List TaskDef) (projectPlan : Option String) :
    CreateResult × TaskManagerFile :=
  let s := loadTasks d
  let projectId := s.projectCounter + 1
  let newTasks := (allocTasks s.taskCounter tasks).1
  let proj : Project :=
    { projectId := projectId
      initialPrompt := initialPrompt
      projectPlan := jsOr projectPlan initialPrompt
      tasks := newTasks
      completed := false }
  (.planned projectId newTasks.length (newTasks.map Task.id),
   { projects := s.data.projects ++ [proj] })

/-- Result of `getNextTask`. -/
inductive NextTaskResult where
  | error (message : String)
  | alreadyCompleted
  | allTasksDone
  | noNextTask
  | nextTask (id : Nat) (title : String) (description : String)
deriving DecidableEq, Repr

/-- `getNextTask`: error if the project is missing; `already_completed`
if its `completed` flag is set; otherwise the first task whose status is
not "done", with the source's (unreachable) `no_next_task` fallback. -/
def getNextTask (d : TaskManagerFile) (projectId : Nat) : NextTaskResult :=
  match (loadTasks d).data.projects.find? (fun p => p.projectId == projectId) with
  | none => .error "Project not found"
  | some proj =>
    if proj.completed then
      .alreadyCompleted
    else
      match proj.tasks.find? (fun t => !(t.status == .done)) with
      | none =>
        if proj.tasks.all (fun t => t.status == .done) && !proj.completed then
          .allTasksDone
        else
          .noNextTask
      | some t => .nextTask t.id t.title t.description

/-- Result of `markTaskDone`. -/
inductive MarkDoneResult where
  | error (message : String)
  | alreadyDone
  | taskMarkedDone (id : Nat) (title : String) (description : String)
      (completedDetails : String) (approved : Bool)
deriving DecidableEq, Repr

/-- `markTaskDone`: errors if project or task is missing; reports
`already_done` on a done task; otherwise sets the status to "done" and
`completedDetails` to `completedDetails || ""` — with no transition
check and no requirement that details be supplied. -/
def markTaskDone (d : TaskManagerFile) (projectId taskId : Nat)
    (completedDetails : Option String) : MarkDoneResult × TaskManagerFile :=
  match (loadTasks d).data.projects.find? (fun p => p.projectId == projectId) with
  | none => (.error "Project not found", d)
  | some proj =>
    match proj.tasks.find? (fun t => t.id == taskId) with
    | none => (.error "Task not found", d)
    | some task =>
      if task.status == .done then
        (.alreadyDone, d)
      else
        let f : Task → Task := fun t =>
          { t with status := .done, completedDetails := jsOr completedDetails "" }
        (.taskMarkedDone task.id task.title task.description
           (jsOr completedDetails "") task.approved,
         { projects :=
             replaceFirst (fun p => p.projectId == projectId)
               (fun p => { p with tasks := replaceFirst (fun t => t.id == taskId) f p.tasks })
               d.projects })

/-- Result of `approveTaskCompletion`. -/
inductive ApproveTaskResult where
  | error (message : String)
  | alreadyApproved
  | taskApproved (id : Nat) (title : String) (description : String)
      (completedDetails : String) (approved : Bool)
deriving DecidableEq, Repr

/-- `approveTaskCompletion`: errors if project or task is missing or the
task is not done; idempotent success on an already approved task;
otherwise sets `approved` to true and saves. -/
def approveTaskCompletion (d : TaskManagerFile) (projectId taskId : Nat) :
    ApproveTaskResult × TaskManagerFile :=
  match (loadTasks d).data.projects.find? (fun p => p.projectId == projectId) with
  | none => (.error "Project not found", d)
  | some proj =>
    match proj.tasks.find? (fun t => t.id == taskId) with
    | none => (.error "Task not found", d)
    | some task =>
      if !(task.status == .done) then
        (.error "Task not done yet.", d)
      else if task.approved then
        (.alreadyApproved, d)
      else
        let g : Task → Task := fun t => { t with approved := true }
        (.taskApproved task.id task.title task.description
           task.completedDetails true,
         { projects :=
             replaceFirst (fun p => p.projectId == projectId)
               (fun p => { p with tasks := replaceFirst (fun t => t.id == taskId) g p.tasks })
               d.projects })

/-- Result of `approveProjectCompletion`. -/
inductive ApproveProjectResult where
  | error (message : String)
  | projectApprovedComplete (projectId : Nat)
deriving DecidableEq, Repr

/-- `approveProjectCompletion`: errors if the project is missing, if
some task is not done, or if some task is done but unapproved; otherwise
sets `completed` to true and saves.  The source performs no check of the
`completed` flag itself. -/
def approveProjectCompletion (d : TaskManagerFile) (projectId : Nat) :
    ApproveProjectResult × TaskManagerFile :=
  match (loadTasks d).data.projects.find? (fun p => p.projectId == projectId) with
  | none => (.error "Project not found", d)
  | some proj =>
    if !(proj.tasks.all (fun t => t.status == .done)) then
      (.error "Not all tasks are done.", d)
    else if !(proj.tasks.all (fun t => t.status == .done && t.approved)) then
      (.error "Not all done tasks are approved.", d)
    else
      (.projectApprovedComplete proj.projectId,
       { projects :=
           replaceFirst (fun p => p.projectId == projectId)
             (fun p => { p with completed := true }) d.projects })

/-- Result of `addTasksToProject`. -/
inductive AddTasksResult where
  | error (message : String)
  | tasksAdded (newTaskIds : List Nat)
deriving DecidableEq, Repr

/-- `addTasksToProject`: errors if the project is missing or completed;
otherwise allocates fresh task ids above the watermark and appends the
new tasks to the project's task list. -/
def addTasksToProject (d : TaskManagerFile) (projectId : Nat)
    (tasks : List TaskDef) : AddTasksResult × TaskManagerFile :=
  let s := loadTasks d
  match s.data.projects.find? (fun p => p.projectId == projectId) with
  | none => (.error "Project not found", d)
  | some proj =>
    if proj.completed then
      (.error "Cannot add tasks to completed project", d)
    else
      let newTasks := (allocTasks s.taskCounter tasks).1
      (.tasksAdded (newTasks.map Task.id),
       { projects :=
           replaceFirst (fun p => p.projectId == projectId)
             (fun p => { p with tasks := p.tasks ++ newTasks }) d.projects })

/-- Result of the public `updateTask` (title/description only). -/
inductive UpdateTaskResult where
  | error (message : String)
  | taskUpdated (id : Nat) (title : String) (description : String)
deriving DecidableEq, Repr

/-- `updateTask`: errors if project or task is missing or the task is
done; otherwise applies truthy title/description updates. -/
def updateTask (d : TaskManagerFile) (projectId taskId : Nat)
    (title description : Option String) : UpdateTaskResult × TaskManagerFile :=
  match (loadTasks d).data.projects.find? (fun p => p.projectId == projectId) with
  | none => (.error "Project not found", d)
  | some proj =>
    match proj.tasks.find? (fun t => t.id == taskId) with
    | none => (.error "Task not found", d)
    | some task =>
      if task.status == .done then
        (.error "Cannot update completed task", d)
      else
        let f : Task → Task := fun t =>
          { t with title := applyTruthy t.title title,
                   description := applyTruthy t.description description }
        (.taskUpdated task.id (applyTruthy task.title title)
           (applyTruthy task.description description),
         { projects :=
             replaceFirst (fun p => p.projectId == projectId)
               (fun p => { p with tasks := replaceFirst (fun t => t.id == taskId) f p.tasks })
               d.projects })

/-- Result of `deleteTask`. -/
inductive DeleteTaskResult where
  | error (message : String)
  | taskDeleted
deriving DecidableEq, Repr

/-- `deleteTask`: errors if project or task is missing or the task is
done; otherwise removes the task from the project. -/
def deleteTask (d : TaskManagerFile) (projectId taskId : Nat) :
    DeleteTaskResult × TaskManagerFile :=
  match (loadTasks d).data.projects.find? (fun p => p.projectId == projectId) with
  | none => (.error "Project not found", d)
  | some proj =>
    match proj.tasks.find? (fun t => t.id == taskId) with
    | none => (.error "Task not found", d)
    | some task =>
      if task.status == .done then
        (.error "Cannot delete completed task", d)
      else
        (.taskDeleted,
         { projects :=
             replaceFirst (fun p => p.projectId == projectId)
               (fun p => { p with tasks := removeFirst (fun t => t.id == taskId) p.tasks })
               d.projects })

/-- Result of `handleProjectTool` with the "delete" action. -/
inductive ProjectDeleteResult where
  | error (message : String)
  | projectDeleted
deriving DecidableEq, Repr

/-- `handleProjectTool` "delete": removes the first project with the
given id (the source uses `findIndex` and `splice`); errors when no
project matches.  This handler does not reload first. -/
def handleProjectToolDelete (d : TaskManagerFile) (projectId : Nat) :
    ProjectDeleteResult × TaskManagerFile :=
  match d.projects.find? (fun p => p.projectId == projectId) with
  | none => (.error "Project not found", d)
  | some _ =>
    (.projectDeleted,
     { projects := removeFirst (fun p => p.projectId == projectId) d.projects })

/-- The status-transition table of `handleTaskTool` "update". -/
def validNextStates : TaskStatus → List TaskStatus
  | .notStarted => [.inProgress]
  | .inProgress => [.done, .notStarted]
  | .done => [.inProgress]

/-- Result of `handleTaskTool` with the "update" action. -/
inductive ToolUpdateResult where
  | error (message : String)
  | taskUpdated (id : Nat) (title : String) (description : String)
      (status : TaskStatus) (approved : Bool) (completedDetails : String)
deriving DecidableEq, Repr

/-- The final task produced by a successful `handleTaskTool` "update":
`completedDetails` is assigned when the target status is "done", then
truthy title/description updates are applied, then the status (always
truthy when present) is applied. -/
def applyToolUpdate (title description : Option String)
    (newStatus : Option TaskStatus) (completedDetails : Option String)
    (t : Task) : Task :=
  match newStatus with
  | some st =>
    let t1 := if st == .done then { t with completedDetails := jsOr completedDetails "" } else t
    { t1 with title := applyTruthy t1.title title,
              description := applyTruthy t1.description description,
              status := st }
  | none =>
    { t with title := applyTruthy t.title title,
             description := applyTruthy t.description description }

/-- `handleTaskTool` "update": errors if project or task is missing or
the task is approved; when a status is requested, a transition to a
different status must be in the transition table, and a transition to
"done" requires truthy `completedDetails`; all checks precede every
mutation.  This handler does not reload first. -/
def handleTaskToolUpdate (d : TaskManagerFile) (projectId taskId : Nat)
    (title description : Option String) (newStatus : Option TaskStatus)
    (completedDetails : Option String) : ToolUpdateResult × TaskManagerFile :=
  match d.projects.find? (fun p => p.projectId == projectId) with
  | none => (.error "Project not found", d)
  | some proj =>
    match proj.tasks.find? (fun t => t.id == taskId) with
    | none => (.error "Task not found", d)
    | some task =>
      if task.approved then
        (.error "Cannot update an approved task", d)
      else
        match newStatus with
        | some st =>
          if !(task.status == st) && !((validNextStates task.status).contains st) then
            (.error "Invalid status transition", d)
          else if st == .done && cdMissing completedDetails then
            (.error "completedDetails is required when setting status to done", d)
          else
            let g := applyToolUpdate title description (some st) completedDetails
            let t' := g task
            (.taskUpdated t'.id t'.title t'.description t'.status t'.approved t'.completedDetails,
             { projects :=
                 replaceFirst (fun p => p.projectId == projectId)
                   (fun p => { p with tasks := replaceFirst (fun t => t.id == taskId) g p.tasks })
                   d.projects })
        | none =>
          let g := applyToolUpdate title description none completedDetails
          let t' := g task
          (.taskUpdated t'.id t'.title t'.description t'.status t'.approved t'.completedDetails,
           { projects :=
               replaceFirst (fun p => p.projectId == projectId)
                 (fun p => { p with tasks := replaceFirst (fun t => t.id == taskId) g p.tasks })
                 d.projects })

/-- The public mutating operations of the manager, as one syntax, so that
state properties can be proved uniformly over every operation. -/
inductive Op where
  | create (initialPrompt : String) (tasks : List TaskDef) (projectPlan : Option String)
  | addTasks (projectId : Nat) (tasks : List TaskDef)
  | markDone (projectId taskId : Nat) (completedDetails : Option String)
  | approveTask (projectId taskId : Nat)
  | approveProject (projectId : Nat)
  | update (projectId taskId : Nat) (title description : Option String)
  | delete (projectId taskId : Nat)
  | toolUpdate (projectId taskId : Nat) (title description : Option String)
      (newStatus : Option TaskStatus) (completedDetails : Option String)
  | projectDelete (projectId : Nat)
deriving Repr

/-- The file state after running one operation (its result value is
discarded). -/
def applyOp (d : TaskManagerFile) : Op → TaskManagerFile
  | .create ip ts pp => (createProject d ip ts pp).2
  | .addTasks pid ts => (addTasksToProject d pid ts).2
  | .markDone pid tid cd => (markTaskDone d pid tid cd).2
  | .approveTask pid tid => (approveTaskCompletion d pid tid).2
  | .approveProject pid => (approveProjectCompletion d pid).2
  | .update pid tid ti de => (updateTask d pid tid ti de).2
  | .delete pid tid => (deleteTask d pid tid).2
  | .toolUpdate pid tid ti de st cd => (handleTaskToolUpdate d pid tid ti de st cd).2
  | .projectDelete pid => (handleProjectToolDelete d pid).2

/-- The creation-only operations of the identifier-allocation claim,
with an explicit store reload (`loadTasks`) as an interleavable step. -/
inductive CreateOp where
  | create (initialPrompt : String) (tasks : List TaskDef) (projectPlan : Option String)
  | addTasks (projectId : Nat) (tasks : List TaskDef)
  | reload
deriving Repr

/-- Runs one creation-only operation, returning the new file state, the
project ids allocated, and the task ids allocated (in order). -/
def stepCreateOp (d : TaskManagerFile) : CreateOp → TaskManagerFile × List Nat × List Nat
  | .create ip ts pp =>
    match createProject d ip ts pp with
    | (.planned pc _ tids, d') => (d', [pc], tids)
  | .addTasks pid ts =>
    match addTasksToProject d pid ts with
    | (.error _, d') => (d', [], [])
    | (.tasksAdded tids, d') => (d', [], tids)
  | .reload => ((loadTasks d).data, [], [])

/-- Final state and allocation traces of a sequence of creation-only
operations. -/
structure RunResult where
  final : TaskManagerFile
  projTrace : List Nat
  taskTrace : List Nat
deriving Repr

/-- Runs a sequence of creation-only operations, concatenating the
allocation traces. -/
def runCreateOps (d : TaskManagerFile) : List CreateOp → RunResult
  | [] => ⟨d, [], []⟩
  | op :: ops =>
    let s := stepCreateOp d op
    let r := runCreateOps s.1 ops
    ⟨r.final, s.2.1 ++ r.projTrace, s.2.2 ++ r.taskTrace⟩

/-! ## The validated manager's auto-approval (modelled from the spec)

The `autoApprove` feature lives in the fuller, validated
`TaskManager` implementation (`src/server/TaskManager.ts`), which the
repository's tests and CLI reference but which is not among the provided
sources; `TaskManagerServer.ts` has no `autoApprove` at all.  The
definitions below are therefore modelled from the spec's words rather
than from source code. -/

/-- Modelled from the spec: a project of the validated `TaskManager`
(`src/server/TaskManager.ts`, not among the provided sources), reduced
to the fields the auto-approval behavior touches.  Per the spec,
`autoApprove` is a boolean fixed at creation. -/
structure VProject where
  autoApprove : Bool
  completed : Bool
  tasks : List Task
deriving DecidableEq, Repr

/-- Modelled from the spec: `create_project` of the validated
`TaskManager` with an explicit `autoApprove` argument; tasks are created
`not started`, unapproved, with empty `completedDetails`. -/
def vCreateProject (defs : List TaskDef) (autoApprove : Bool) : VProject :=
  { autoApprove := autoApprove
    completed := false
    tasks := (allocTasks 0 defs).1 }

/-- Modelled from the spec: the status-updating part of the validated
`TaskManager.updateTask`.  An update against an approved task fails; a
transition must be in the transition table (requesting the current
status is a no-op success); moving into `done` requires a non-empty
`completedDetails` and, atomically in the same operation, sets
`approved := true` when the project's `autoApprove` is true (and leaves
`approved` untouched otherwise).  Failures are `none`. -/
def vUpdateTaskStatus (p : VProject) (taskId : Nat) (newStatus : TaskStatus)
    (completedDetails : String) : Option VProject :=
  match p.tasks.find? (fun t => t.id == taskId) with
  | none => none
  | some task =>
    if task.approved then none
    else if task.status == newStatus then some p
    else if !((validNextStates task.status).contains newStatus) then none
    else if newStatus == .done && completedDetails == "" then none
    else
      let f : Task → Task := fun t =>
        if newStatus == .done then
          { t with status := newStatus, completedDetails := completedDetails,
                   approved := (t.approved || p.autoApprove) }
        else { t with status := newStatus }
      some { p with tasks := replaceFirst (fun t => t.id == taskId) f p.tasks }

/-! ## State predicates and concrete states -/

/-- The central approval invariant: every approved task is done. -/
def FileInv (d : TaskManagerFile) : Prop :=
  ∀ p ∈ d.projects, ∀ t ∈ p.tasks, t.approved = true → t.status = .done

instance : DecidablePred FileInv := fun d =>
  List.decidableBAll _ d.projects

/-- The empty store, `{ projects: [] }`. -/
def emptyFile : TaskManagerFile := ⟨[]⟩

/-- One project, one task `task-1` in status "not started". -/
def fNotStarted : TaskManagerFile :=
  ⟨[⟨1, "p", "p", [⟨1, "T1", "d1", .notStarted, false, ""⟩], false⟩]⟩

/-- One project, one task `task-1` in status "in progress". -/
def fInProgress : TaskManagerFile :=
  ⟨[⟨1, "p", "p", [⟨1, "T1", "d1", .inProgress, false, ""⟩], false⟩]⟩

/-- One project, one done but unapproved task `task-1`. -/
def fDoneUnapproved : TaskManagerFile :=
  ⟨[⟨1, "p", "p", [⟨1, "T1", "d1", .done, false, "did it"⟩], false⟩]⟩

/-- One project whose tasks are a "not started" task followed by an
"in progress" task — the order that separates a plain first-non-done
scan from an in-progress-priority scan. -/
def fMixedOrder : TaskManagerFile :=
  ⟨[⟨1, "p", "p",
     [⟨1, "T1", "d1", .notStarted, false, ""⟩,
      ⟨2, "T2", "d2", .inProgress, false, ""⟩], false⟩]⟩

/-- The spec's worked example: tasks {T1: done, T2: in progress,
T3: not started}. -/
def fSpecExample : TaskManagerFile :=
  ⟨[⟨1, "p", "p",
     [⟨1, "T1", "d1", .done, true, "x"⟩,
      ⟨2, "T2", "d2", .inProgress, false, ""⟩,
      ⟨3, "T3", "d3", .notStarted, false, ""⟩], false⟩]⟩

/-- One already-completed project with no tasks. -/
def fCompletedEmpty : TaskManagerFile := ⟨[⟨1, "p", "p", [], true⟩]⟩

/-- One open (not completed) project with no tasks. -/
def fEmptyOpen : TaskManagerFile := ⟨[⟨1, "p", "p", [], false⟩]⟩

/-- A project marked completed that still has a "not started" task. -/
def fCompletedWithTask : TaskManagerFile :=
  ⟨[⟨1, "p", "p", [⟨1, "T1", "d1", .notStarted, false, ""⟩], true⟩]⟩

/-- The facts one creation-only step provides for the
identifier-allocation argument: pre-existing ids survive, allocated ids
are recorded in the new state, every allocated id is strictly above
every pre-existing id, the allocation trace is strictly increasing, and
distinctness of the stored ids is preserved. -/
def StepOk (d d' : TaskManagerFile) (ptr ttr : List Nat) : Prop :=
  (∀ x ∈ allProjectIds d, x ∈ allProjectIds d') ∧
  (∀ x ∈ allTaskIds d, x ∈ allTaskIds d') ∧
  (∀ y ∈ ptr, y ∈ allProjectIds d') ∧
  (∀ y ∈ ttr, y ∈ allTaskIds d') ∧
  (∀ y ∈ ptr, ∀ x ∈ allProjectIds d, x < y) ∧
  (∀ y ∈ ttr, ∀ x ∈ allTaskIds d, x < y) ∧
  List.Chain' (fun a b => a < b) ptr ∧
  List.Chain' (fun a b => a < b) ttr ∧
  ((allProjectIds d).Nodup → (allProjectIds d').Nodup) ∧
  ((allTaskIds d).Nodup → (allTaskIds d').Nodup)

/-- A concrete creation scenario with an interleaved reload, used as a
witness for the identifier-allocation property. -/
def c7ops : List CreateOp :=
  [.create "first" [⟨"a", "b"⟩, ⟨"c", "d"⟩] none, .reload, .addTasks 1 [⟨"e", "f"⟩]]

/-! ## List infrastructure lemmas -/

theorem le_maxId_of_mem {l : List Nat} {x : Nat} (h : x ∈ l) : x ≤ maxId l := by
  induction l with
  | nil => cases h
  | cons a l ih =>
    simp only [maxId, List.foldr_cons]
    rcases List.mem_cons.mp h with rfl | h'
    · exact le_max_left _ _
    · exact le_trans (ih h') (le_max_right _ _)

theorem replaceFirst_of_find?_none {α : Type} {p : α → Bool} (f : α → α) {l : List α}
    (h : l.find? p = none) : replaceFirst p f l = l := by
  induction l with
  | nil => rfl
  | cons a l ih =>
    by_cases hpa : p a = true
    · rw [List.find?_cons_of_pos _ hpa] at h
      cases h
    · rw [List.find?_cons_of_neg _ hpa] at h
      simp only [replaceFirst, if_neg hpa]
      rw [ih h]

theorem find?_replaceFirst_split {α : Type} {p : α → Bool} (f : α → α) {l : List α} {a : α}
    (h : l.find? p = some a) :
    ∃ l₁ l₂, l = l₁ ++ a :: l₂ ∧ (∀ x ∈ l₁, p x = false) ∧
      replaceFirst p f l = l₁ ++ f a :: l₂ := by
  induction l with
  | nil => cases h
  | cons b l ih =>
    by_cases hpb : p b = true
    · rw [List.find?_cons_of_pos _ hpb] at h
      obtain rfl : b = a := by injection h
      refine ⟨[], l, rfl, ?_, ?_⟩
      · intro x hx
        cases hx
      · simp [replaceFirst, hpb]
    · rw [List.find?_cons_of_neg _ hpb] at h
      obtain ⟨l₁, l₂, rfl, hall, hrep⟩ := ih h
      refine ⟨b :: l₁, l₂, rfl, ?_, ?_⟩
      · intro x hx
        rcases List.mem_cons.mp hx with rfl | hx'
        · exact Bool.eq_false_iff.mpr hpb
        · exact hall x hx'
      · simp only [replaceFirst, if_neg hpb, hrep, List.cons_append]

theorem mem_replaceFirst {α : Type} {p : α → Bool} {f : α → α} {l : List α} {x : α}
    (h : x ∈ replaceFirst p f l) : x ∈ l ∨ ∃ a, l.find? p = some a ∧ x = f a := by
  cases hf : l.find? p with
  | none =>
    rw [replaceFirst_of_find?_none f hf] at h
    exact Or.inl h
  | some a =>
    obtain ⟨l₁, l₂, hl, _hall, hrep⟩ := find?_replaceFirst_split f hf
    rw [hrep] at h
    rcases List.mem_append.mp h with h1 | h2
    · exact Or.inl (hl ▸ List.mem_append.mpr (Or.inl h1))
    · rcases List.mem_cons.mp h2 with h2' | h3
      · refine Or.inr ⟨a, rfl, ?_⟩
        exact h2'
      · exact Or.inl (hl ▸ List.mem_append.mpr (Or.inr (List.mem_cons.mpr (Or.inr h3))))

theorem mem_removeFirst {α : Type} {p : α → Bool} {l : List α} {x : α}
    (h : x ∈ removeFirst p l) : x ∈ l := by
  induction l with
  | nil => cases h
  | cons a l ih =>
    simp only [removeFirst] at h
    by_cases hpa : p a = true
    · rw [if_pos hpa] at h
      exact List.mem_cons_of_mem a h
    · rw [if_neg hpa] at h
      rcases List.mem_cons.mp h with rfl | h'
      · exact List.mem_cons_self _ _
      · exact List.mem_cons_of_mem _ (ih h')

theorem allocTasks_mem {defs : List TaskDef} {c : Nat} {t : Task}
    (h : t ∈ (allocTasks c defs).1) :
    t.status = .notStarted ∧ t.approved = false ∧ c < t.id ∧ t.id ≤ c + defs.length := by
  induction defs generalizing c with
  | nil => cases h
  | cons td rest ih =>
    simp only [allocTasks] at h
    rcases List.mem_cons.mp h with rfl | h'
    · refine ⟨rfl, rfl, Nat.lt_succ_self c, ?_⟩
      simp only [List.length_cons]
      omega
    · obtain ⟨h1, h2, h3, h4⟩ := ih h'
      refine ⟨h1, h2, by omega, ?_⟩
      simp only [List.length_cons]
      omega

/-! ## Invariant-preservation helpers -/

theorem fileInv_of_replace {d : TaskManagerFile} {pp : Project → Bool} {f : Project → Project}
    (h : FileInv d)
    (hf : ∀ a, d.projects.find? pp = some a →
      ∀ t ∈ (f a).tasks, t.approved = true → t.status = .done) :
    FileInv ⟨replaceFirst pp f d.projects⟩ := by
  intro p hp t ht happ
  rcases mem_replaceFirst hp with hp' | ⟨a, hfind, rfl⟩
  · exact h p hp' t ht happ
  · exact hf a hfind t ht happ

theorem taskInv_of_replaceTasks {ts : List Task} {tp : Task → Bool} {g : Task → Task}
    (hts : ∀ t ∈ ts, t.approved = true → t.status = .done)
    (hg : ∀ b, ts.find? tp = some b → (g b).approved = true → (g b).status = .done) :
    ∀ t ∈ replaceFirst tp g ts, t.approved = true → t.status = .done := by
  intro t ht happ
  rcases mem_replaceFirst ht with ht' | ⟨b, hfind, rfl⟩
  · exact hts t ht' happ
  · exact hg b hfind happ

theorem applyToolUpdate_approved (title description : Option String)
    (newStatus : Option TaskStatus) (completedDetails : Option String) (t : Task) :
    (applyToolUpdate title description newStatus completedDetails t).approved = t.approved := by
  cases newStatus with
  | none => rfl
  | some st =>
    simp only [applyToolUpdate]
    by_cases h : (st == TaskStatus.done) = true
    · rw [if_pos h]
    · rw [if_neg h]

theorem fileInv_createProject (d : TaskManagerFile) (ip : String) (ts : List TaskDef)
    (pp : Option String) (h : FileInv d) : FileInv (createProject d ip ts pp).2 := by
  simp only [createProject, loadTasks]
  intro p hp t ht happ
  rcases List.mem_append.mp hp with hp' | hp'
  · exact h p hp' t ht happ
  · rcases List.mem_cons.mp hp' with rfl | hnil
    · obtain ⟨_, h2, _, _⟩ := allocTasks_mem ht
      rw [happ] at h2
      cases h2
    · cases hnil

theorem fileInv_addTasksToProject (d : TaskManagerFile) (pid : Nat) (ts : List TaskDef)
    (h : FileInv d) : FileInv (addTasksToProject d pid ts).2 := by
  simp only [addTasksToProject, loadTasks]
  cases hfp : d.projects.find? (fun p => p.projectId == pid) with
  | none => exact h
  | some proj =>
    dsimp only
    by_cases hc : proj.completed = true
    · rw [if_pos hc]
      exact h
    · rw [if_neg hc]
      apply fileInv_of_replace h
      intro a hfind
      rw [hfp] at hfind
      obtain rfl : proj = a := Option.some.inj hfind
      intro t ht happ
      rcases List.mem_append.mp ht with ht' | ht'
      · exact h proj (List.mem_of_find?_eq_some hfp) t ht' happ
      · obtain ⟨_, h2, _, _⟩ := allocTasks_mem ht'
        rw [happ] at h2
        cases h2

theorem fileInv_markTaskDone (d : TaskManagerFile) (pid tid : Nat) (cd : Option String)
    (h : FileInv d) : FileInv (markTaskDone d pid tid cd).2 := by
  simp only [markTaskDone, loadTasks]
  cases hfp : d.projects.find? (fun p => p.projectId == pid) with
  | none => exact h
  | some proj =>
    dsimp only
    cases hft : proj.tasks.find? (fun t => t.id == tid) with
    | none => exact h
    | some task =>
      dsimp only
      by_cases hst : (task.status == TaskStatus.done) = true
      · rw [if_pos hst]
        exact h
      · rw [if_neg hst]
        apply fileInv_of_replace h
        intro a hfind
        rw [hfp] at hfind
        obtain rfl : proj = a := Option.some.inj hfind
        apply taskInv_of_replaceTasks (h proj (List.mem_of_find?_eq_some hfp))
        intro b _ _
        rfl

theorem fileInv_approveTaskCompletion (d : TaskManagerFile) (pid tid : Nat)
    (h : FileInv d) : FileInv (approveTaskCompletion d pid tid).2 := by
  simp only [approveTaskCompletion, loadTasks]
  cases hfp : d.projects.find? (fun p => p.projectId == pid) with
  | none => exact h
  | some proj =>
    dsimp only
    cases hft : proj.tasks.find? (fun t => t.id == tid) with
    | none => exact h
    | some task =>
      dsimp only
      by_cases hst : (!(task.status == TaskStatus.done)) = true
      · rw [if_pos hst]
        exact h
      · rw [if_neg hst]
        by_cases hap : task.approved = true
        · rw [if_pos hap]
          exact h
        · rw [if_neg hap]
          apply fileInv_of_replace h
          intro a hfind
          rw [hfp] at hfind
          obtain rfl : proj = a := Option.some.inj hfind
          apply taskInv_of_replaceTasks (h proj (List.mem_of_find?_eq_some hfp))
          intro b hfindb _
          rw [hft] at hfindb
          obtain rfl : task = b := Option.some.inj hfindb
          have hdone : task.status = TaskStatus.done := by
            simpa using hst
          exact hdone

theorem fileInv_approveProjectCompletion (d : TaskManagerFile) (pid : Nat)
    (h : FileInv d) : FileInv (approveProjectCompletion d pid).2 := by
  simp only [approveProjectCompletion, loadTasks]
  cases hfp : d.projects.find? (fun p => p.projectId == pid) with
  | none => exact h
  | some proj =>
    dsimp only
    by_cases h1 : (!(proj.tasks.all fun t => t.status == TaskStatus.done)) = true
    · rw [if_pos h1]
      exact h
    · rw [if_neg h1]
      by_cases h2 : (!(proj.tasks.all fun t => t.status == TaskStatus.done && t.approved)) = true
      · rw [if_pos h2]
        exact h
      · rw [if_neg h2]
        apply fileInv_of_replace h
        intro a hfind
        rw [hfp] at hfind
        obtain rfl : proj = a := Option.some.inj hfind
        intro t ht happ
        exact h proj (List.mem_of_find?_eq_some hfp) t ht happ

theorem fileInv_updateTask (d : TaskManagerFile) (pid tid : Nat)
    (ti de : Option String) (h : FileInv d) : FileInv (updateTask d pid tid ti de).2 := by
  simp only [updateTask, loadTasks]
  cases hfp : d.projects.find? (fun p => p.projectId == pid) with
  | none => exact h
  | some proj =>
    dsimp only
    cases hft : proj.tasks.find? (fun t => t.id == tid) with
    | none => exact h
    | some task =>
      dsimp only
      by_cases hst : (task.status == TaskStatus.done) = true
      · rw [if_pos hst]
        exact h
      · rw [if_neg hst]
        apply fileInv_of_replace h
        intro a hfind
        rw [hfp] at hfind
        obtain rfl : proj = a := Option.some.inj hfind
        apply taskInv_of_replaceTasks (h proj (List.mem_of_find?_eq_some hfp))
        intro b hfindb happ
        exact h proj (List.mem_of_find?_eq_some hfp) b (List.mem_of_find?_eq_some hfindb) happ

theorem fileInv_deleteTask (d : TaskManagerFile) (pid tid : Nat)
    (h : FileInv d) : FileInv (deleteTask d pid tid).2 := by
  simp only [deleteTask, loadTasks]
  cases hfp : d.projects.find? (fun p => p.projectId == pid) with
  | none => exact h
  | some proj =>
    dsimp only
    cases hft : proj.tasks.find? (fun t => t.id == tid) with
    | none => exact h
    | some task =>
      dsimp only
      by_cases hst : (task.status == TaskStatus.done) = true
      · rw [if_pos hst]
        exact h
      · rw [if_neg hst]
        apply fileInv_of_replace h
        intro a hfind
        rw [hfp] at hfind
        obtain rfl : proj = a := Option.some.inj hfind
        intro t ht happ
        exact h proj (List.mem_of_find?_eq_some hfp) t (mem_removeFirst ht) happ

theorem fileInv_handleTaskToolUpdate (d : TaskManagerFile) (pid tid : Nat)
    (ti de : Option String) (newStatus : Option TaskStatus) (cd : Option String)
    (h : FileInv d) : FileInv (handleTaskToolUpdate d pid tid ti de newStatus cd).2 := by
  simp only [handleTaskToolUpdate]
  cases hfp : d.projects.find? (fun p => p.projectId == pid) with
  | none => exact h
  | some proj =>
    dsimp only
    cases hft : proj.tasks.find? (fun t => t.id == tid) with
    | none => exact h
    | some task =>
      dsimp only
      by_cases hap : task.approved = true
      · rw [if_pos hap]
        exact h
      · rw [if_neg hap]
        cases newStatus with
        | none =>
          dsimp only
          apply fileInv_of_replace h
          intro a hfind
          rw [hfp] at hfind
          obtain rfl : proj = a := Option.some.inj hfind
          apply taskInv_of_replaceTasks (h proj (List.mem_of_find?_eq_some hfp))
          intro b hfindb happ
          rw [hft] at hfindb
          obtain rfl : task = b := Option.some.inj hfindb
          rw [applyToolUpdate_approved] at happ
          exact absurd happ hap
        | some st =>
          dsimp only
          by_cases h1 :
              (!(task.status == st) && !((validNextStates task.status).contains st)) = true
          · rw [if_pos h1]
            exact h
          · rw [if_neg h1]
            by_cases h2 : (st == TaskStatus.done && cdMissing cd) = true
            · rw [if_pos h2]
              exact h
            · rw [if_neg h2]
              apply fileInv_of_replace h
              intro a hfind
              rw [hfp] at hfind
              obtain rfl : proj = a := Option.some.inj hfind
              apply taskInv_of_replaceTasks (h proj (List.mem_of_find?_eq_some hfp))
              intro b hfindb happ
              rw [hft] at hfindb
              obtain rfl : task = b := Option.some.inj hfindb
              rw [applyToolUpdate_approved] at happ
              exact absurd happ hap

theorem fileInv_handleProjectToolDelete (d : TaskManagerFile) (pid : Nat)
    (h : FileInv d) : FileInv (handleProjectToolDelete d pid).2 := by
  simp only [handleProjectToolDelete]
  cases hfp : d.projects.find? (fun p => p.projectId == pid) with
  | none => exact h
  | some proj =>
    dsimp only
    intro p hp t ht happ
    exact h p (mem_removeFirst hp) t ht happ

/-- C1: after any public operation of the manager (createProject,
addTasksToProject, markTaskDone, approveTaskCompletion,
approveProjectCompletion, updateTask, deleteTask, handleTaskTool update,
handleProjectTool delete) applied to a state satisfying the invariant,
every task with `approved = true` has `status = done`: no operation sets
`approved` on a task that is not done, and no operation moves an
approved task away from done. -/
theorem c1_approved_implies_done (d : TaskManagerFile) (op : Op) (h : FileInv d) :
    FileInv (applyOp d op) := by
  cases op with
  | create ip ts pp => exact fileInv_createProject d ip ts pp h
  | addTasks pid ts => exact fileInv_addTasksToProject d pid ts h
  | markDone pid tid cd => exact fileInv_markTaskDone d pid tid cd h
  | approveTask pid tid => exact fileInv_approveTaskCompletion d pid tid h
  | approveProject pid => exact fileInv_approveProjectCompletion d pid h
  | update pid tid ti de => exact fileInv_updateTask d pid tid ti de h
  | delete pid tid => exact fileInv_deleteTask d pid tid h
  | toolUpdate pid tid ti de st cd => exact fileInv_handleTaskToolUpdate d pid tid ti de st cd h
  | projectDelete pid => exact fileInv_handleProjectToolDelete d pid h

/-- Witness for C1: the invariant holds for a concrete store with a
done-but-unapproved task and is preserved by approving that task. -/
theorem c1_approved_implies_done_witness :
    FileInv fDoneUnapproved ∧ FileInv (applyOp fDoneUnapproved (Op.approveTask 1 1)) := by
  constructor
  · decide
  · exact c1_approved_implies_done fDoneUnapproved (Op.approveTask 1 1) (by decide)

theorem find?_first_block {α : Type} {p : α → Bool} (l₁ : List α) (a : α) (l₂ : List α)
    (h1 : ∀ x ∈ l₁, p x = false) (h2 : p a = true) :
    (l₁ ++ a :: l₂).find? p = some a := by
  induction l₁ with
  | nil => simp [List.find?_cons_of_pos _ h2]
  | cons b l ih =>
    have hb : p b = false := h1 b (List.mem_cons_self _ _)
    rw [List.cons_append, List.find?_cons_of_neg]
    · exact ih fun x hx => h1 x (List.mem_cons_of_mem _ hx)
    · simp [hb]

/-- C2 counterexample: in `fMixedOrder` task `task-2` is "in progress"
while the earlier task `task-1` is "not started"; the claim says the
in-progress task `task-2` is returned, but `getNextTask` scans for the
first task that is not done and returns `task-1`. -/
theorem c2_counterexample :
    (fMixedOrder.projects.map fun p => p.tasks.map Task.status) =
      [[TaskStatus.notStarted, TaskStatus.inProgress]] ∧
    getNextTask fMixedOrder 1 = .nextTask 1 "T1" "d1" ∧
    getNextTask fMixedOrder 1 ≠ .nextTask 2 "T2" "d2" := by
  refine ⟨rfl, rfl, ?_⟩
  decide

/-- C2 amended: for an existing, non-completed project, `getNextTask`
returns the first task in insertion order whose status is not "done",
whether that task is "not started" or "in progress" (no in-progress
priority); on the spec's example {done, in progress, not started} this
is still T2. -/
theorem c2_first_not_done_task (d : TaskManagerFile) (pid : Nat) (proj : Project)
    (l₁ : List Task) (t : Task) (l₂ : List Task)
    (hfp : d.projects.find? (fun p => p.projectId == pid) = some proj)
    (hc : proj.completed = false)
    (hsplit : proj.tasks = l₁ ++ t :: l₂)
    (hdone : ∀ u ∈ l₁, u.status = TaskStatus.done)
    (ht : t.status ≠ TaskStatus.done) :
    getNextTask d pid = .nextTask t.id t.title t.description := by
  have hfind : proj.tasks.find? (fun u => !(u.status == TaskStatus.done)) = some t := by
    rw [hsplit]
    apply find?_first_block
    · intro x hx
      simp [hdone x hx]
    · simp [ht]
  simp only [getNextTask, loadTasks, hfp]
  rw [if_neg (by simp [hc]), hfind]

/-- Witness for C2's amended claim at the spec's worked example
{T1: done, T2: in progress, T3: not started}: T2 is returned. -/
theorem c2_first_not_done_task_witness :
    getNextTask fSpecExample 1 = .nextTask 2 "T2" "d2" :=
  c2_first_not_done_task fSpecExample 1
    ⟨1, "p", "p",
     [⟨1, "T1", "d1", .done, true, "x"⟩,
      ⟨2, "T2", "d2", .inProgress, false, ""⟩,
      ⟨3, "T3", "d3", .notStarted, false, ""⟩], false⟩
    [⟨1, "T1", "d1", .done, true, "x"⟩]
    ⟨2, "T2", "d2", .inProgress, false, ""⟩
    [⟨3, "T3", "d3", .notStarted, false, ""⟩]
    rfl rfl rfl (by decide) (by decide)

/-- C3 counterexample: `fCompletedEmpty` holds a project whose
`completed` flag is already true; the claim says finalizing it again
fails with an already-completed error, but `approveProjectCompletion`
succeeds again with `project_approved_complete` (it has no
already-completed check). -/
theorem c3_counterexample :
    fCompletedEmpty.projects = [⟨1, "p", "p", [], true⟩] ∧
    (approveProjectCompletion fCompletedEmpty 1).1 =
      .projectApprovedComplete 1 ∧
    (approveProjectCompletion fCompletedEmpty 1).2 = fCompletedEmpty :=
  ⟨rfl, rfl, rfl⟩

/-- C3 amended: `approveProjectCompletion` has no already-completed
check: on an existing project whose `completed` flag is already true and
whose tasks are all done and approved, it succeeds again with
`project_approved_complete` and leaves the store unchanged. -/
theorem c3_finalize_already_completed (d : TaskManagerFile) (pid : Nat) (proj : Project)
    (hfp : d.projects.find? (fun p => p.projectId == pid) = some proj)
    (hc : proj.completed = true)
    (hall : (proj.tasks.all fun t => t.status == TaskStatus.done) = true)
    (happ : (proj.tasks.all fun t => t.status == TaskStatus.done && t.approved) = true) :
    approveProjectCompletion d pid = (.projectApprovedComplete proj.projectId, d) := by
  obtain ⟨l₁, l₂, hl, _, hrep⟩ :=
    find?_replaceFirst_split (fun p => { p with completed := true }) hfp
  have hproj : ({ proj with completed := true } : Project) = proj := by
    cases proj
    subst hc
    rfl
  simp only [approveProjectCompletion, loadTasks, hfp, hall, happ]
  rw [if_neg (by simp), if_neg (by simp)]
  rw [Prod.mk.injEq]
  refine ⟨rfl, ?_⟩
  cases d with
  | mk ps =>
    simp only [TaskManagerFile.mk.injEq]
    rw [hrep, hproj]
    exact hl.symm

/-- Witness for C3's amended claim: re-finalizing the already-completed
empty project succeeds and changes nothing. -/
theorem c3_finalize_already_completed_witness :
    approveProjectCompletion fCompletedEmpty 1 =
      (.projectApprovedComplete 1, fCompletedEmpty) :=
  c3_finalize_already_completed fCompletedEmpty 1 ⟨1, "p", "p", [], true⟩
    rfl rfl rfl rfl

/-- C4 counterexample: `task-1` in `fNotStarted` has status
"not started"; the claim says every operation that sets it directly to
"done" fails with the invalid-transition error, but `markTaskDone`
performs exactly this transition and succeeds, mutating the store. -/
theorem c4_counterexample :
    (fNotStarted.projects.map fun p => p.tasks.map Task.status) =
      [[TaskStatus.notStarted]] ∧
    (markTaskDone fNotStarted 1 1 (some "details")).1 =
      .taskMarkedDone 1 "T1" "d1" "details" false ∧
    (markTaskDone fNotStarted 1 1 (some "details")).2 =
      ⟨[⟨1, "p", "p", [⟨1, "T1", "d1", .done, false, "details"⟩], false⟩]⟩ :=
  ⟨rfl, rfl, rfl⟩

/-- C4 amended: only the task-tool "update" path enforces the transition
table: requesting "done" on an existing, unapproved "not started" task
via `handleTaskTool` update fails with the invalid-transition error and
leaves the store unchanged (while `markTaskDone` bypasses the table, as
the counterexample shows). -/
theorem c4_toolUpdate_rejects_notStarted_done (d : TaskManagerFile) (pid tid : Nat)
    (ti de cd : Option String) (proj : Project) (task : Task)
    (hfp : d.projects.find? (fun p => p.projectId == pid) = some proj)
    (hft : proj.tasks.find? (fun t => t.id == tid) = some task)
    (hap : task.approved = false)
    (hst : task.status = TaskStatus.notStarted) :
    handleTaskToolUpdate d pid tid ti de (some TaskStatus.done) cd =
      (.error "Invalid status transition", d) := by
  have hcond : (!(task.status == TaskStatus.done) &&
      !((validNextStates task.status).contains TaskStatus.done)) = true := by
    rw [hst]
    rfl
  simp only [handleTaskToolUpdate, hfp, hft]
  rw [if_neg (by simp [hap]), if_pos hcond]

/-- Witness for C4's amended claim at the concrete not-started task. -/
theorem c4_toolUpdate_rejects_notStarted_done_witness :
    handleTaskToolUpdate fNotStarted 1 1 none none (some TaskStatus.done) (some "x") =
      (.error "Invalid status transition", fNotStarted) :=
  c4_toolUpdate_rejects_notStarted_done fNotStarted 1 1 none none (some "x")
    ⟨1, "p", "p", [⟨1, "T1", "d1", .notStarted, false, ""⟩], false⟩
    ⟨1, "T1", "d1", .notStarted, false, ""⟩
    rfl rfl rfl rfl

/-- C5 counterexample: `markTaskDone` moves the in-progress task of
`fInProgress` into "done" with `completedDetails` omitted and succeeds,
storing the empty string — the claim says every operation moving a task
into "done" fails when the details are omitted. -/
theorem c5_counterexample :
    (fInProgress.projects.map fun p => p.tasks.map Task.status) =
      [[TaskStatus.inProgress]] ∧
    (markTaskDone fInProgress 1 1 none).1 =
      .taskMarkedDone 1 "T1" "d1" "" false ∧
    (markTaskDone fInProgress 1 1 none).2 =
      ⟨[⟨1, "p", "p", [⟨1, "T1", "d1", .done, false, ""⟩], false⟩]⟩ :=
  ⟨rfl, rfl, rfl⟩

/-- C5 amended: only the task-tool "update" path requires a non-empty
`completedDetails` when moving into "done": with the details absent or
empty it fails before any mutation and leaves the store unchanged
(while `markTaskDone` accepts an omitted value and stores "", as the
counterexample shows). -/
theorem c5_toolUpdate_requires_details (d : TaskManagerFile) (pid tid : Nat)
    (ti de cd : Option String) (proj : Project) (task : Task)
    (hfp : d.projects.find? (fun p => p.projectId == pid) = some proj)
    (hft : proj.tasks.find? (fun t => t.id == tid) = some task)
    (hap : task.approved = false)
    (hst : task.status = TaskStatus.inProgress ∨ task.status = TaskStatus.done)
    (hcd : cdMissing cd = true) :
    handleTaskToolUpdate d pid tid ti de (some TaskStatus.done) cd =
      (.error "completedDetails is required when setting status to done", d) := by
  have hcond1 : (!(task.status == TaskStatus.done) &&
      !((validNextStates task.status).contains TaskStatus.done)) = false := by
    rcases hst with h | h <;> rw [h] <;> rfl
  have hcond1' : ¬((!(task.status == TaskStatus.done) &&
      !((validNextStates task.status).contains TaskStatus.done)) = true) := by
    rw [hcond1]
    simp
  simp only [handleTaskToolUpdate, hfp, hft]
  rw [if_neg (by simp [hap]), if_neg hcond1', if_pos (by simp [hcd])]

/-- Witness for C5's amended claim: the tool update into "done" with no
details fails on the in-progress task and changes nothing. -/
theorem c5_toolUpdate_requires_details_witness :
    handleTaskToolUpdate fInProgress 1 1 none none (some TaskStatus.done) none =
      (.error "completedDetails is required when setting status to done", fInProgress) :=
  c5_toolUpdate_requires_details fInProgress 1 1 none none none
    ⟨1, "p", "p", [⟨1, "T1", "d1", .inProgress, false, ""⟩], false⟩
    ⟨1, "T1", "d1", .inProgress, false, ""⟩
    rfl rfl rfl (Or.inl rfl) rfl

/-- C9: `approveProjectCompletion` on an existing project with no tasks
and `completed = false` succeeds (both universally quantified checks
hold vacuously on an empty task list) and sets `completed := true` on
exactly that project, rather than failing with a no-tasks error. -/
theorem c9_finalize_empty_project (d : TaskManagerFile) (pid : Nat) (proj : Project)
    (hfp : d.projects.find? (fun p => p.projectId == pid) = some proj)
    (hempty : proj.tasks = []) (_hc : proj.completed = false) :
    (approveProjectCompletion d pid).1 = .projectApprovedComplete proj.projectId ∧
    ∃ l₁ l₂, d.projects = l₁ ++ proj :: l₂ ∧
      (approveProjectCompletion d pid).2.projects =
        l₁ ++ { proj with completed := true } :: l₂ := by
  have hall : (proj.tasks.all fun t => t.status == TaskStatus.done) = true := by
    rw [hempty]
    rfl
  have happ : (proj.tasks.all fun t => t.status == TaskStatus.done && t.approved) = true := by
    rw [hempty]
    rfl
  obtain ⟨l₁, l₂, hl, _, hrep⟩ :=
    find?_replaceFirst_split (fun p => { p with completed := true }) hfp
  constructor
  · simp only [approveProjectCompletion, loadTasks, hfp, hall, happ]
    rw [if_neg (by simp), if_neg (by simp)]
  · refine ⟨l₁, l₂, hl, ?_⟩
    simp only [approveProjectCompletion, loadTasks, hfp, hall, happ]
    rw [if_neg (by simp), if_neg (by simp)]
    exact hrep

/-- Witness for C9 at the concrete empty open project. -/
theorem c9_finalize_empty_project_witness :
    (approveProjectCompletion fEmptyOpen 1).1 = .projectApprovedComplete 1 ∧
    ∃ l₁ l₂, fEmptyOpen.projects = l₁ ++ (⟨1, "p", "p", [], false⟩ : Project) :: l₂ ∧
      (approveProjectCompletion fEmptyOpen 1).2.projects =
        l₁ ++ ({ (⟨1, "p", "p", [], false⟩ : Project) with completed := true }) :: l₂ :=
  c9_finalize_empty_project fEmptyOpen 1 ⟨1, "p", "p", [], false⟩ rfl rfl rfl

/-- C10: for an existing project whose `completed` flag is true,
`getNextTask` answers `already_completed` immediately, whatever the
statuses of its tasks. -/
theorem c10_getNextTask_already_completed (d : TaskManagerFile) (pid : Nat) (proj : Project)
    (hfp : d.projects.find? (fun p => p.projectId == pid) = some proj)
    (hc : proj.completed = true) :
    getNextTask d pid = .alreadyCompleted := by
  simp only [getNextTask, loadTasks, hfp]
  rw [if_pos hc]

/-- Witness for C10: the completed project still holding a not-started
task is reported `already_completed`. -/
theorem c10_getNextTask_already_completed_witness :
    getNextTask fCompletedWithTask 1 = .alreadyCompleted :=
  c10_getNextTask_already_completed fCompletedWithTask 1
    ⟨1, "p", "p", [⟨1, "T1", "d1", .notStarted, false, ""⟩], true⟩ rfl rfl

/-- C6: `approveTaskCompletion` fails without changing state when the
project or task does not exist or the task is not done; on a done,
already-approved task it returns the successful `already_approved`
result without altering state; otherwise it sets `approved := true` on
exactly that task (all other tasks and projects unchanged) and
persists. -/
theorem c6_approveTaskCompletion_spec (d : TaskManagerFile) (pid tid : Nat) :
    (d.projects.find? (fun p => p.projectId == pid) = none →
      approveTaskCompletion d pid tid = (.error "Project not found", d)) ∧
    (∀ proj, d.projects.find? (fun p => p.projectId == pid) = some proj →
      (proj.tasks.find? (fun t => t.id == tid) = none →
        approveTaskCompletion d pid tid = (.error "Task not found", d)) ∧
      (∀ task, proj.tasks.find? (fun t => t.id == tid) = some task →
        (task.status ≠ TaskStatus.done →
          approveTaskCompletion d pid tid = (.error "Task not done yet.", d)) ∧
        (task.status = TaskStatus.done → task.approved = true →
          approveTaskCompletion d pid tid = (.alreadyApproved, d)) ∧
        (task.status = TaskStatus.done → task.approved = false →
          (approveTaskCompletion d pid tid).1 =
            .taskApproved task.id task.title task.description task.completedDetails true ∧
          ∃ P₁ P₂ l₁ l₂,
            d.projects = P₁ ++ proj :: P₂ ∧
            proj.tasks = l₁ ++ task :: l₂ ∧
            (approveTaskCompletion d pid tid).2.projects =
              P₁ ++ { proj with tasks := l₁ ++ { task with approved := true } :: l₂ } :: P₂))) := by
  refine ⟨?_, ?_⟩
  · intro hfp
    simp only [approveTaskCompletion, loadTasks, hfp]
  · intro proj hfp
    refine ⟨?_, ?_⟩
    · intro hft
      simp only [approveTaskCompletion, loadTasks, hfp, hft]
    · intro task hft
      refine ⟨?_, ?_, ?_⟩
      · intro hnd
        have hb : (task.status == TaskStatus.done) = false := beq_eq_false_iff_ne.mpr hnd
        simp only [approveTaskCompletion, loadTasks, hfp, hft]
        rw [if_pos (by simp [hb])]
      · intro hd hap
        have hb : (task.status == TaskStatus.done) = true := by rw [hd]; rfl
        simp only [approveTaskCompletion, loadTasks, hfp, hft]
        rw [if_neg (by simp [hb]), if_pos hap]
      · intro hd hap
        have hb : (task.status == TaskStatus.done) = true := by rw [hd]; rfl
        obtain ⟨l₁, l₂, hl, _, hrepT⟩ :=
          find?_replaceFirst_split (fun t => { t with approved := true }) hft
        obtain ⟨P₁, P₂, hP, _, hrepP⟩ :=
          find?_replaceFirst_split
            (fun p => { p with tasks := replaceFirst (fun t => t.id == tid) (fun t => { t with approved := true }) p.tasks }) hfp
        constructor
        · simp only [approveTaskCompletion, loadTasks, hfp, hft]
          rw [if_neg (by simp [hb]), if_neg (by simp [hap])]
        · refine ⟨P₁, P₂, l₁, l₂, hP, hl, ?_⟩
          simp only [approveTaskCompletion, loadTasks, hfp, hft]
          rw [if_neg (by simp [hb]), if_neg (by simp [hap])]
          dsimp only
          rw [hrepP, hrepT]

/-- Witness for C6: approving the done, unapproved task of
`fDoneUnapproved` returns `task_approved` with `approved = true`. -/
theorem c6_approveTaskCompletion_spec_witness :
    (approveTaskCompletion fDoneUnapproved 1 1).1 =
      .taskApproved 1 "T1" "d1" "did it" true := by
  have h := (((c6_approveTaskCompletion_spec fDoneUnapproved 1 1).2
      ⟨1, "p", "p", [⟨1, "T1", "d1", .done, false, "did it"⟩], false⟩ rfl).2
      ⟨1, "T1", "d1", .done, false, "did it"⟩ rfl).2.2 rfl rfl
  exact h.1

theorem mem_of_head?_mem {α : Type} {l : List α} {x : α} (h : x ∈ l.head?) : x ∈ l := by
  cases l with
  | nil => cases h
  | cons a l =>
    rw [List.head?_cons, Option.mem_def] at h
    rw [Option.some.injEq] at h
    rw [h]
    exact List.mem_cons_self _ _

theorem mem_of_getLast?_mem {α : Type} {l : List α} {x : α} (h : x ∈ l.getLast?) : x ∈ l := by
  obtain ⟨hne, rfl⟩ := List.mem_getLast?_eq_getLast h
  exact List.getLast_mem hne

theorem nodup_of_chain_lt {l : List Nat} (h : List.Chain' (fun a b => a < b) l) : l.Nodup :=
  (List.chain'_iff_pairwise.mp h).nodup

theorem nodup_insert_middle {l₁ l₂ mid : List Nat}
    (h : (l₁ ++ l₂).Nodup) (hmid : mid.Nodup)
    (hfresh : ∀ y ∈ mid, ∀ x ∈ l₁ ++ l₂, x < y) :
    (l₁ ++ (mid ++ l₂)).Nodup := by
  have hperm : (l₁ ++ (mid ++ l₂)).Perm (mid ++ (l₁ ++ l₂)) := by
    rw [← List.append_assoc, ← List.append_assoc]
    exact List.perm_append_comm.append_right l₂
  rw [hperm.nodup_iff]
  refine List.Nodup.append hmid h ?_
  intro a ha ha'
  exact absurd rfl (Nat.ne_of_lt (hfresh a ha a ha')).symm

theorem allocTasks_ids_chain (defs : List TaskDef) (c : Nat) :
    List.Chain' (fun a b => a < b) (((allocTasks c defs).1).map Task.id) := by
  induction defs generalizing c with
  | nil => exact List.chain'_nil
  | cons td rest ih =>
    simp only [allocTasks, List.map_cons]
    rw [List.chain'_cons']
    refine ⟨?_, ih (c + 1)⟩
    intro y hy
    obtain ⟨t, htm, rfl⟩ := List.mem_map.mp (mem_of_head?_mem hy)
    have := (allocTasks_mem htm).2.2.1
    omega

theorem stepOk_id (d : TaskManagerFile) : StepOk d d [] [] := by
  refine ⟨fun x hx => hx, fun x hx => hx, ?_, ?_, ?_, ?_,
    List.chain'_nil, List.chain'_nil, id, id⟩ <;>
    intro y hy <;> cases hy

theorem stepOk_create (d : TaskManagerFile) (ip : String) (ts : List TaskDef)
    (pp : Option String) :
    StepOk d (stepCreateOp d (.create ip ts pp)).1
      (stepCreateOp d (.create ip ts pp)).2.1 (stepCreateOp d (.create ip ts pp)).2.2 := by
  rw [show stepCreateOp d (.create ip ts pp) =
      (⟨d.projects ++ [⟨maxId (allProjectIds d) + 1, ip, jsOr pp ip,
          (allocTasks (maxId (allTaskIds d)) ts).1, false⟩]⟩,
       [maxId (allProjectIds d) + 1],
       ((allocTasks (maxId (allTaskIds d)) ts).1).map Task.id) from rfl]
  refine ⟨?_, ?_, ?_, ?_, ?_, ?_, ?_, ?_, ?_, ?_⟩
  · intro x hx
    simp only [allProjectIds, List.map_append]
    exact List.mem_append.mpr (Or.inl hx)
  · intro x hx
    simp only [allTaskIds, List.map_append, List.flatten_append]
    exact List.mem_append.mpr (Or.inl hx)
  · intro y hy
    rcases List.mem_cons.mp hy with rfl | hy'
    · simp [allProjectIds]
    · cases hy'
  · intro y hy
    simp only [allTaskIds, List.map_append, List.flatten_append, List.mem_append]
    refine Or.inr ?_
    simp only [List.map_cons, List.map_nil, List.flatten_cons, List.flatten_nil,
      List.append_nil]
    exact hy
  · intro y hy
    rcases List.mem_cons.mp hy with rfl | hy'
    · intro x hx
      have := le_maxId_of_mem hx
      omega
    · cases hy'
  · intro y hy x hx
    obtain ⟨t, htm, rfl⟩ := List.mem_map.mp hy
    have h1 := (allocTasks_mem htm).2.2.1
    have h2 := le_maxId_of_mem hx
    omega
  · exact List.chain'_singleton _
  · exact allocTasks_ids_chain ts _
  · intro hnd
    simp only [allProjectIds, List.map_append]
    refine List.Nodup.append hnd (by simp) ?_
    intro a ha ha'
    simp only [List.map_cons, List.map_nil, List.mem_cons] at ha'
    rcases ha' with rfl | h'
    · have := le_maxId_of_mem ha
      omega
    · cases h'
  · intro hnd
    simp only [allTaskIds, List.map_append, List.flatten_append]
    refine List.Nodup.append hnd ?_ ?_
    · simp only [List.map_cons, List.map_nil, List.flatten_cons, List.flatten_nil,
        List.append_nil]
      exact nodup_of_chain_lt (allocTasks_ids_chain ts _)
    · intro a ha ha'
      simp only [List.map_cons, List.map_nil, List.flatten_cons, List.flatten_nil,
        List.append_nil] at ha'
      obtain ⟨t, htm, rfl⟩ := List.mem_map.mp ha'
      have h1 := (allocTasks_mem htm).2.2.1
      have h2 := le_maxId_of_mem ha
      omega

theorem stepOk_addTasks (d : TaskManagerFile) (pid : Nat) (ts : List TaskDef) :
    StepOk d (stepCreateOp d (.addTasks pid ts)).1
      (stepCreateOp d (.addTasks pid ts)).2.1 (stepCreateOp d (.addTasks pid ts)).2.2 := by
  simp only [stepCreateOp, addTasksToProject, loadTasks]
  cases hfp : d.projects.find? (fun p => p.projectId == pid) with
  | none => exact stepOk_id d
  | some proj =>
    dsimp only
    by_cases hc : proj.completed = true
    · rw [if_pos hc]
      exact stepOk_id d
    · rw [if_neg hc]
      dsimp only
      set wt := maxId (allTaskIds d) with hwt
      obtain ⟨P₁, P₂, hP, _, hrep⟩ :=
        find?_replaceFirst_split
          (fun p => { p with tasks := p.tasks ++ (allocTasks wt ts).1 }) hfp
      have hA : allProjectIds
          ⟨replaceFirst (fun p => p.projectId == pid)
            (fun p => { p with tasks := p.tasks ++ (allocTasks wt ts).1 })
            d.projects⟩ = allProjectIds d := by
        simp only [allProjectIds, hrep]
        rw [hP]
        simp
      have hold : allTaskIds d =
          ((P₁.map fun p => p.tasks.map Task.id).flatten ++ proj.tasks.map Task.id) ++
            ((P₂.map fun p => p.tasks.map Task.id).flatten ++ []) := by
        simp only [allTaskIds]
        rw [hP]
        simp
      have hnew : allTaskIds
          ⟨replaceFirst (fun p => p.projectId == pid)
            (fun p => { p with tasks := p.tasks ++ (allocTasks wt ts).1 })
            d.projects⟩ =
          ((P₁.map fun p => p.tasks.map Task.id).flatten ++ proj.tasks.map Task.id) ++
            (((allocTasks wt ts).1).map Task.id ++
              ((P₂.map fun p => p.tasks.map Task.id).flatten ++ [])) := by
        simp only [allTaskIds, hrep]
        simp
      refine ⟨?_, ?_, ?_, ?_, ?_, ?_, List.chain'_nil, ?_, ?_, ?_⟩
      · intro x hx
        rw [hA]
        exact hx
      · intro x hx
        rw [hold] at hx
        rw [hnew]
        rcases List.mem_append.mp hx with h1 | h2
        · exact List.mem_append.mpr (Or.inl h1)
        · exact List.mem_append.mpr (Or.inr (List.mem_append.mpr (Or.inr h2)))
      · intro y hy
        cases hy
      · intro y hy
        rw [hnew]
        exact List.mem_append.mpr (Or.inr (List.mem_append.mpr (Or.inl hy)))
      · intro y hy
        cases hy
      · intro y hy x hx
        obtain ⟨t, htm, rfl⟩ := List.mem_map.mp hy
        have h1 := (allocTasks_mem htm).2.2.1
        have h2 := le_maxId_of_mem hx
        rw [← hwt] at h2
        omega
      · exact allocTasks_ids_chain ts _
      · intro hnd
        rw [hA]
        exact hnd
      · intro hnd
        rw [hold] at hnd
        rw [hnew]
        refine nodup_insert_middle hnd
          (nodup_of_chain_lt (allocTasks_ids_chain ts _)) ?_
        intro y hy x hx
        obtain ⟨t, htm, rfl⟩ := List.mem_map.mp hy
        have h1 := (allocTasks_mem htm).2.2.1
        have hx' : x ∈ allTaskIds d := by
          rw [hold]
          exact hx
        have h2 := le_maxId_of_mem hx'
        rw [← hwt] at h2
        omega

theorem stepOk_stepCreateOp (d : TaskManagerFile) (op : CreateOp) :
    StepOk d (stepCreateOp d op).1 (stepCreateOp d op).2.1 (stepCreateOp d op).2.2 := by
  cases op with
  | create ip ts pp => exact stepOk_create d ip ts pp
  | addTasks pid ts => exact stepOk_addTasks d pid ts
  | reload => exact stepOk_id d

theorem stepOk_comp {d d' d'' : TaskManagerFile} {p₁ t₁ p₂ t₂ : List Nat}
    (h1 : StepOk d d' p₁ t₁) (h2 : StepOk d' d'' p₂ t₂) :
    StepOk d d'' (p₁ ++ p₂) (t₁ ++ t₂) := by
  obtain ⟨a1, a2, a3, a4, a5, a6, a7, a8, a9, a10⟩ := h1
  obtain ⟨b1, b2, b3, b4, b5, b6, b7, b8, b9, b10⟩ := h2
  refine ⟨fun x hx => b1 x (a1 x hx), fun x hx => b2 x (a2 x hx), ?_, ?_, ?_, ?_, ?_, ?_,
    fun h => b9 (a9 h), fun h => b10 (a10 h)⟩
  · intro y hy
    rcases List.mem_append.mp hy with h | h
    · exact b1 y (a3 y h)
    · exact b3 y h
  · intro y hy
    rcases List.mem_append.mp hy with h | h
    · exact b2 y (a4 y h)
    · exact b4 y h
  · intro y hy x hx
    rcases List.mem_append.mp hy with h | h
    · exact a5 y h x hx
    · exact b5 y h x (a1 x hx)
  · intro y hy x hx
    rcases List.mem_append.mp hy with h | h
    · exact a6 y h x hx
    · exact b6 y h x (a2 x hx)
  · refine List.Chain'.append a7 b7 ?_
    intro x hx y hy
    have hx1 : x ∈ allProjectIds d' := a3 x (mem_of_getLast?_mem hx)
    exact b5 y (mem_of_head?_mem hy) x hx1
  · refine List.Chain'.append a8 b8 ?_
    intro x hx y hy
    have hx1 : x ∈ allTaskIds d' := a4 x (mem_of_getLast?_mem hx)
    exact b6 y (mem_of_head?_mem hy) x hx1

theorem runCreateOps_ok (ops : List CreateOp) (d : TaskManagerFile) :
    StepOk d (runCreateOps d ops).final
      (runCreateOps d ops).projTrace (runCreateOps d ops).taskTrace := by
  induction ops generalizing d with
  | nil => exact stepOk_id d
  | cons op ops ih =>
    simp only [runCreateOps]
    exact stepOk_comp (stepOk_stepCreateOp d op) (ih (stepCreateOp d op).1)

/-- C7: over any sequence of createProject / addTasksToProject calls
interleaved with store reloads (loadTasks recomputing the watermarks),
starting from a store whose project ids and task ids are each pairwise
distinct: the allocated project ids are strictly increasing (hence
pairwise distinct) and strictly above every pre-existing project id, the
allocated task ids likewise, and the final store's project ids and task
ids remain pairwise distinct — no id is ever reused, also across
reloads. -/
theorem c7_id_allocation (d : TaskManagerFile) (ops : List CreateOp)
    (hp : (allProjectIds d).Nodup) (ht : (allTaskIds d).Nodup) :
    List.Chain' (fun a b => a < b) (runCreateOps d ops).projTrace ∧
    List.Chain' (fun a b => a < b) (runCreateOps d ops).taskTrace ∧
    (runCreateOps d ops).projTrace.Nodup ∧
    (runCreateOps d ops).taskTrace.Nodup ∧
    (∀ y ∈ (runCreateOps d ops).projTrace, ∀ x ∈ allProjectIds d, x < y) ∧
    (∀ y ∈ (runCreateOps d ops).taskTrace, ∀ x ∈ allTaskIds d, x < y) ∧
    (allProjectIds (runCreateOps d ops).final).Nodup ∧
    (allTaskIds (runCreateOps d ops).final).Nodup := by
  obtain ⟨_, _, _, _, a5, a6, a7, a8, a9, a10⟩ := runCreateOps_ok ops d
  exact ⟨a7, a8, nodup_of_chain_lt a7, nodup_of_chain_lt a8, a5, a6, a9 hp, a10 ht⟩

/-- Witness for C7: a create, a reload, and an addTasks starting from a
concrete one-project store; ids stay fresh and distinct. -/
theorem c7_id_allocation_witness :
    (allProjectIds fDoneUnapproved).Nodup ∧ (allTaskIds fDoneUnapproved).Nodup ∧
    (List.Chain' (fun a b => a < b) (runCreateOps fDoneUnapproved c7ops).projTrace ∧
     List.Chain' (fun a b => a < b) (runCreateOps fDoneUnapproved c7ops).taskTrace ∧
     (runCreateOps fDoneUnapproved c7ops).projTrace.Nodup ∧
     (runCreateOps fDoneUnapproved c7ops).taskTrace.Nodup ∧
     (∀ y ∈ (runCreateOps fDoneUnapproved c7ops).projTrace,
       ∀ x ∈ allProjectIds fDoneUnapproved, x < y) ∧
     (∀ y ∈ (runCreateOps fDoneUnapproved c7ops).taskTrace,
       ∀ x ∈ allTaskIds fDoneUnapproved, x < y) ∧
     (allProjectIds (runCreateOps fDoneUnapproved c7ops).final).Nodup ∧
     (allTaskIds (runCreateOps fDoneUnapproved c7ops).final).Nodup) :=
  ⟨by decide, by decide, c7_id_allocation fDoneUnapproved c7ops (by decide) (by decide)⟩

/-- C8 (modelled from the spec): in the validated manager, a project
created with `autoApprove = a` whose sole task is moved
not started → in progress → done (the latter with a non-empty
`completedDetails`) ends with that task done, holding the supplied
details, and `approved = a`: with `autoApprove` true the task is
approved atomically in the same done-setting update, with `autoApprove`
false (or unspecified, the default) it stays unapproved. -/
theorem c8_autoApprove (a : Bool) (ti de cd : String) (hcd : cd ≠ "") :
    (vUpdateTaskStatus (vCreateProject [⟨ti, de⟩] a) 1 .inProgress "").bind
        (fun p1 => vUpdateTaskStatus p1 1 .done cd) =
      some { autoApprove := a, completed := false,
             tasks := [⟨1, ti, de, .done, a, cd⟩] } := by
  have hcd' : (cd == "") = false := beq_eq_false_iff_ne.mpr hcd
  have h1 : vUpdateTaskStatus (vCreateProject [⟨ti, de⟩] a) 1 .inProgress "" =
      some { autoApprove := a, completed := false,
             tasks := [⟨1, ti, de, .inProgress, false, ""⟩] } := rfl
  rw [h1, Option.some_bind]
  simp [vUpdateTaskStatus, replaceFirst, validNextStates, hcd']

/-- Witness for C8 with `autoApprove = true` and details "done!": the
sole task comes out approved. -/
theorem c8_autoApprove_witness :
    (vUpdateTaskStatus (vCreateProject [⟨"t", "d"⟩] true) 1 .inProgress "").bind
        (fun p1 => vUpdateTaskStatus p1 1 .done "done!") =
      some { autoApprove := true, completed := false,
             tasks := [⟨1, "t", "d", .done, true, "done!"⟩] } :=
  c8_autoApprove true "t" "d" "done!" (by decide)

end TaskQueue
